import Mathlib

/-!
Shallow embedding of the GOAP planner of `include/aitoolkit/goap.hpp`
(`namespace aitoolkit::goap`) and of the concrete planning scenario of
`tests/goap.spec.cpp`.

Modelling conventions:

* The blackboard type `T` is a type parameter equipped with `DecidableEq T`.
  The C++ code requires `T` to be comparable (`a == b`) and hashable with a
  hash consistent with `==` (the `blackboard_trait` concept together with the
  documented caller contract); under that contract the `std::unordered_set<T>`
  closed set behaves exactly as membership up to `==`, which we model as a
  `List T` with decidable membership.
* `float` costs are modelled by exact arithmetic over `Int`.  Every cost
  appearing in the repository (and in every claim below) is the literal
  `1.0f`, whose sums and comparisons `float` computes exactly, so this is a
  faithful model of all computations considered here; no property proved
  below inspects cost values beyond their ordering.
* The virtual class `action<T>` becomes a structure of three functions.  The
  C++ contract (spec §4.1) that the methods are pure functions of the state is
  automatic in this embedding; the `dry_run` flag is kept as an explicit
  `Bool` argument of `apply_effects`.
* A search node's `parent` pointer chain is flattened into the list of action
  indices taken from the root to the node, in execution order; this is exactly
  the data recovered by the plan-reconstruction loop of `planner`.
* `std::priority_queue` (a min-queue on `cost` here, via the reversed
  comparator) is modelled as a cost-sorted list: pops take the least-cost
  element; the order among equal-cost elements is unspecified by the C++
  standard and none of the properties proved below depend on it.
* The search loop is modelled by the fuel-based `searchAux`, where one unit of
  fuel is one loop iteration.  For `max_iterations ≥ 1` the C++ function
  `planner` is exactly `planner` below; for `max_iterations == 0` the C++
  loop is unbounded, which is captured by the predicate `planner_returns`
  (there is a fuel after which the run reaches a terminal outcome, and by
  `searchAux_stable` that outcome is unique).
* The outcome constructors carry the final closed set (and, for a fuel-out,
  the frontier) as ghost observations of the internal search state; `planner`
  ignores them, they only serve to state internal-invariant claims.
-/

set_option linter.unusedSectionVars false

namespace aitoolkit.goap

variable {T : Type}

/-- Model of `aitoolkit::goap::action<T>`: a cost, a precondition check and an
effect application taking the `dry_run` flag. -/
structure action (T : Type) where
  cost : T → Int
  check_preconditions : T → Bool
  apply_effects : T → Bool → T

/-- Model of the local `node_type` of `planner`: the blackboard reached, the
accumulated cost, and (replacing `action_taken_idx`/`parent`) the list of
action indices taken from the root, in execution order. -/
structure Node (T : Type) where
  blackboard : T
  cost : Int
  chain : List Nat
deriving DecidableEq

/-- Model of `aitoolkit::goap::plan<T>`: the `m_plan` stack of action indices
(head = stack top = next action to execute) and the owned action vector. -/
structure plan (T : Type) where
  m_plan : List Nat
  m_actions : List (action T)

/-- Model of `plan::size()`. -/
def plan.size (p : plan T) : Nat :=
  p.m_plan.length

/-- Model of `plan::operator bool()`: whether the plan is non-empty. -/
def plan.toBool (p : plan T) : Bool :=
  !p.m_plan.isEmpty

/-- Model of `plan::run_next(T&)`: if the plan is non-empty, pop the next
action index and apply that action's effects with `dry_run = false`.  The
vector access `m_actions[action_idx]` is embedded as a total lookup whose
out-of-range branch leaves the blackboard unchanged. -/
def plan.run_next (p : plan T) (blackboard : T) : plan T × T :=
  match p.m_plan with
  | [] => (p, blackboard)
  | action_idx :: rest =>
    match p.m_actions[action_idx]? with
    | some a => (⟨rest, p.m_actions⟩, a.apply_effects blackboard false)
    | none => (⟨rest, p.m_actions⟩, blackboard)

/-- The committing execution of a list of action indices, by structural
recursion on the list; one step applies the indexed action's effects with
`dry_run = false`, with the out-of-range branch of the lookup embedded as a
no-op. -/
def run_all_aux (m_actions : List (action T)) : List Nat → T → T
  | [], blackboard => blackboard
  | action_idx :: rest, blackboard =>
    run_all_aux m_actions rest
      (match m_actions[action_idx]? with
       | some a => a.apply_effects blackboard false
       | none => blackboard)

/-- Running a plan to exhaustion: the caller's loop
`while (p) p.run_next(blackboard);`.  `run_all_eq_run_next` below identifies
each step with `plan.run_next`. -/
def plan.run_all (p : plan T) (blackboard : T) : T :=
  run_all_aux p.m_actions p.m_plan blackboard

/-- Outcome of the search loop of `planner`: the goal was popped (with the
reconstructed execution-order chain), the frontier was exhausted, or the
iteration budget ran out.  The final closed set (and remaining frontier, for
a budget exhaustion) are carried as ghost observations. -/
inductive SearchOutcome (T : Type) where
  | found (chain : List Nat) (closed : List T)
  | exhausted (closed : List T)
  | fuelOut (openSet : List (Node T)) (closed : List T)

/-- The final closed set of an outcome. -/
def SearchOutcome.closedOf : SearchOutcome T → List T
  | .found _ closed => closed
  | .exhausted closed => closed
  | .fuelOut _ closed => closed

/-- Whether the outcome is a successful goal pop. -/
def SearchOutcome.isFound : SearchOutcome T → Bool
  | .found _ _ => true
  | _ => false

/-- Whether the outcome is an iteration-budget exhaustion. -/
def SearchOutcome.isFuelOut : SearchOutcome T → Bool
  | .fuelOut _ _ => true
  | _ => false

/-- The chain of a successful outcome, if any. -/
def SearchOutcome.chainOf : SearchOutcome T → Option (List Nat)
  | .found chain _ => some chain
  | _ => none

/-- The root node pushed by `planner` before the loop. -/
def initial_node (initital_blackboard : T) : Node T :=
  ⟨initital_blackboard, 0, []⟩

/-- One push into the frontier: insertion into the cost-sorted list, before the
first element of greater or equal cost (models `open_set.push`; the order of
equal-cost elements inside `std::priority_queue` is unspecified, and nothing
proved below depends on it). -/
def push_open (n : Node T) : List (Node T) → List (Node T)
  | [] => [n]
  | m :: rest => if n.cost ≤ m.cost then n :: m :: rest else m :: push_open n rest

variable [DecidableEq T]

/-- The successor nodes generated by the expansion loop
`for (action_idx = 0; ...)` of `planner`, for the sublist `acts` of actions
whose first element has index `action_idx` in the full list: applicable
actions whose (dry-run) successor state is not in the closed set. -/
def expand : List (action T) → Nat → Node T → List T → List (Node T)
  | [], _, _, _ => []
  | a :: acts, action_idx, current, closed =>
    let tail := expand acts (action_idx + 1) current closed
    if a.check_preconditions current.blackboard then
      let next_blackboard := a.apply_effects current.blackboard true
      let next_cost := current.cost + a.cost current.blackboard
      if next_blackboard ∈ closed then tail
      else ⟨next_blackboard, next_cost, current.chain ++ [action_idx]⟩ :: tail
    else tail

/-- The search loop of `planner`, with `fuel` remaining iterations.  Each
iteration pops the least-cost node, returns on goal equality, skips
already-closed states, and otherwise closes the state and pushes the
successors produced by `expand`. -/
def searchAux (actions : List (action T)) (goal_blackboard : T) :
    Nat → List (Node T) → List T → SearchOutcome T
  | 0, openSet, closed => .fuelOut openSet closed
  | _ + 1, [], closed => .exhausted closed
  | fuel + 1, current :: openRest, closed =>
    if current.blackboard = goal_blackboard then
      .found current.chain closed
    else if current.blackboard ∈ closed then
      searchAux actions goal_blackboard fuel openRest closed
    else
      searchAux actions goal_blackboard fuel
        ((expand actions 0 current (current.blackboard :: closed)).foldl
          (fun acc n => push_open n acc) openRest)
        (current.blackboard :: closed)

/-- Model of `aitoolkit::goap::planner` for `max_iterations ≥ 1`: run the
search for at most `max_iterations` iterations from the root node; on a goal
pop, build the plan from the moved action list and the reconstructed chain,
otherwise return the default-constructed (empty) plan.  The C++ call with
`max_iterations == 0` runs the same loop unboundedly and is captured by
`planner_returns`. -/
def planner (actions : List (action T)) (initital_blackboard goal_blackboard : T)
    (max_iterations : Nat) : plan T :=
  match searchAux actions goal_blackboard max_iterations
      [initial_node initital_blackboard] [] with
  | .found chain _ => ⟨chain, actions⟩
  | _ => ⟨[], []⟩

/-- The plan the exit of the search loop yields: the reconstructed chain with
the moved action list on a goal pop, the default-constructed plan on frontier
exhaustion, and nothing if the iteration budget ran out (the unbounded loop
has not terminated yet at this fuel). -/
def outcome_plan (actions : List (action T)) : SearchOutcome T → Option (plan T)
  | .found chain _ => some ⟨chain, actions⟩
  | .exhausted _ => some ⟨[], []⟩
  | .fuelOut _ _ => none

/-- The observable result of the C++ call
`planner(actions, initial, goal, max_iterations)`: for a positive budget this
is the bounded run `planner`; for `max_iterations == 0` the loop is unbounded
and returns `p` exactly when some amount of fuel reaches a terminal outcome
yielding `p` (by `searchAux_stable` that outcome is unique; if no fuel
suffices, the C++ call diverges and returns nothing). -/
def planner_returns (actions : List (action T)) (initital_blackboard goal_blackboard : T)
    (max_iterations : Nat) (p : plan T) : Prop :=
  if max_iterations = 0 then
    ∃ fuel,
      outcome_plan actions (searchAux actions goal_blackboard fuel
        [initial_node initital_blackboard] []) = some p
  else p = planner actions initital_blackboard goal_blackboard max_iterations

/-- Replaying a chain of action indices from a state with `dry_run = true`:
the state the search associates to a node whose root-to-node action indices
are `chain`. -/
def replay (actions : List (action T)) (chain : List Nat) (s : T) : T :=
  chain.foldl
    (fun b action_idx =>
      match actions[action_idx]? with
      | some a => a.apply_effects b true
      | none => b)
    s

/-- Unreachability of `g` from `i`: no chain of action applications (as the
search computes them) transforms `i` into `g`. -/
def unreachable_from (actions : List (action T)) (i g : T) : Prop :=
  ∀ chain : List Nat, replay actions chain i ≠ g

/-- Divergence of the C++ call with `max_iterations == 0`: every amount of
fuel runs out, i.e. the unbounded loop never terminates. -/
def search_diverges (actions : List (action T)) (i g : T) : Prop :=
  ∀ fuel, (searchAux actions g fuel [initial_node i] []).isFuelOut = true

/-- Whether the search underlying
`planner(actions, i, g, max_iterations)` pops a goal node. -/
def search_found (actions : List (action T)) (i g : T) (max_iterations : Nat) : Prop :=
  if max_iterations = 0 then
    ∃ fuel chain closed,
      searchAux actions g fuel [initial_node i] [] = .found chain closed
  else
    ∃ chain closed,
      searchAux actions g max_iterations [initial_node i] [] = .found chain closed

/-- The search invariant attached to a frontier node: its blackboard is the
dry-run replay of its chain from the initial blackboard, and every index of
the chain points into the action list. -/
def NodeInv (actions : List (action T)) (i : T) (nd : Node T) : Prop :=
  replay actions nd.chain i = nd.blackboard ∧ ∀ idx ∈ nd.chain, idx < actions.length

/-- Termination measure of the search loop over a finite invariant state list
`S`: frontier size plus (number of states of `S` not yet closed) weighted by
the maximal frontier growth of one expansion. -/
def searchMeasure (nActs : Nat) (S : List T) (openSet : List (Node T))
    (closed : List T) : Nat :=
  openSet.length + (S.filter fun s => decide (s ∉ closed)).length * (nActs + 1)

/-! ### The concrete scenario of `tests/goap.spec.cpp`

The test blackboard also carries a `plan_order` string, but the caller's
`operator==` and `std::hash` ignore it, so it does not participate in the
search (states differing only in `plan_order` are the same search state); it
is therefore omitted from the model, exactly as in the scenario stated by the
specification. -/

/-- The test's `blackboard_type` (minus the equality-irrelevant
`plan_order`). -/
structure blackboard_type where
  have_storage : Bool
  wood : Int
  food : Int
  gold : Int
  stone : Int
deriving DecidableEq

/-- The test's `chop_wood`: always applicable, `wood += 1`, cost 1. -/
def chop_wood : action blackboard_type :=
  ⟨fun _ => 1, fun _ => true, fun b _ => { b with wood := b.wood + 1 }⟩

/-- The test's `build_storage`: requires `wood >= 10 && !have_storage`,
sets `have_storage`, `wood -= 10`, cost 1. -/
def build_storage : action blackboard_type :=
  ⟨fun _ => 1, fun b => decide (b.wood ≥ 10) && !b.have_storage,
   fun b _ => { b with have_storage := true, wood := b.wood - 10 }⟩

/-- The test's `gather_food`: requires `have_storage`, `food += 1`, cost 1. -/
def gather_food : action blackboard_type :=
  ⟨fun _ => 1, fun b => b.have_storage, fun b _ => { b with food := b.food + 1 }⟩

/-- The test's `mine_gold`: requires `have_storage`, `gold += 1`, cost 1. -/
def mine_gold : action blackboard_type :=
  ⟨fun _ => 1, fun b => b.have_storage, fun b _ => { b with gold := b.gold + 1 }⟩

/-- The test's `mine_stone`: requires `have_storage`, `stone += 1`, cost 1. -/
def mine_stone : action blackboard_type :=
  ⟨fun _ => 1, fun b => b.have_storage, fun b _ => { b with stone := b.stone + 1 }⟩

/-- The action list of the test, in source order. -/
def resource_actions : List (action blackboard_type) :=
  [chop_wood, build_storage, gather_food, mine_gold, mine_stone]

/-- The test's initial state. -/
def resource_initial : blackboard_type := ⟨false, 0, 0, 0, 0⟩

/-- The test's goal state (first subcase). -/
def resource_goal : blackboard_type := ⟨true, 0, 3, 2, 1⟩

/-- The unreachable goal of the second subcase: `have_storage` must stay
false, yet food/gold/stone are positive. -/
def resource_goal_unreachable : blackboard_type := ⟨false, 0, 3, 2, 1⟩

/-- The action chain the modelled search returns on the test scenario:
10 × `chop_wood` (index 0), then `build_storage` (1), then the six
storage-dependent steps: 3 × `gather_food` (2), 2 × `mine_gold` (3),
1 × `mine_stone` (4). -/
def C4_chain : List Nat := [0, 0, 0, 0, 0, 0, 0, 0, 0, 0, 1, 2, 2, 3, 4, 2, 3]

/-- The state invariant that makes `resource_goal_unreachable` unreachable:
without storage, no food, gold or stone can have been gathered. -/
def storage_free_inv (b : blackboard_type) : Prop :=
  b.have_storage = false → b.food = 0 ∧ b.gold = 0 ∧ b.stone = 0

/-! ### Small auxiliary scenarios used to exhibit behaviours -/

/-- An always-applicable unit-cost action on `Nat` blackboards that increments
the state: it generates an infinite reachable state space. -/
def count_up : action Nat :=
  ⟨fun _ => 1, fun _ => true, fun n _ => n + 1⟩

/-- The frontier node the search reaches after `k` iterations from initial
blackboard `6` with `count_up` alone. -/
def count_up_node (k : Nat) : Node Nat :=
  ⟨6 + k, (k : Int), List.replicate k 0⟩

/-- The closed set the search reaches after `k` iterations from initial
blackboard `6` with `count_up` alone. -/
def count_up_closed : Nat → List Nat
  | 0 => []
  | k + 1 => (6 + k) :: count_up_closed k

/-- Two distinct actions with identical effects, used to push the same state
onto the frontier twice in a single expansion. -/
def dup_left : action Nat :=
  ⟨fun _ => 1, fun _ => true, fun n _ => n + 1⟩

/-- See `dup_left`. -/
def dup_right : action Nat :=
  ⟨fun _ => 1, fun _ => true, fun n _ => n + 1⟩

/-- An action whose state transition depends on the `dry_run` flag, violating
the documented action contract (spec §4.1): during search exploration
(`dry_run = true`) it yields `1`, during committing execution it yields
`2`. -/
def dry_run_sensitive : action Nat :=
  ⟨fun _ => 1, fun _ => true, fun _ dry_run => if dry_run then 1 else 2⟩

/-! ### Frontier and expansion lemmas -/

theorem push_open_mem (n x : Node T) (l : List (Node T)) :
    x ∈ push_open n l ↔ x = n ∨ x ∈ l := by
  induction l with
  | nil => simp [push_open]
  | cons m rest ih =>
    simp only [push_open]
    by_cases h : n.cost ≤ m.cost
    · simp [h]
    · simp [h, ih]
      tauto

theorem push_open_length (n : Node T) (l : List (Node T)) :
    (push_open n l).length = l.length + 1 := by
  induction l with
  | nil => rfl
  | cons m rest ih =>
    simp only [push_open]
    by_cases h : n.cost ≤ m.cost
    · simp [h]
    · simp [h, ih]

theorem foldl_push_mem (x : Node T) (l init : List (Node T)) :
    x ∈ l.foldl (fun acc n => push_open n acc) init ↔ x ∈ init ∨ x ∈ l := by
  induction l generalizing init with
  | nil => simp
  | cons m rest ih =>
    simp only [List.foldl_cons, ih, push_open_mem, List.mem_cons]
    tauto

theorem foldl_push_length (l init : List (Node T)) :
    (l.foldl (fun acc n => push_open n acc) init).length = init.length + l.length := by
  induction l generalizing init with
  | nil => rfl
  | cons m rest ih =>
    simp only [List.foldl_cons, ih, push_open_length, List.length_cons]
    omega

theorem expand_mem {acts : List (action T)} {k : Nat} {cur : Node T}
    {closed : List T} {nd : Node T} (h : nd ∈ expand acts k cur closed) :
    ∃ j a, acts[j]? = some a ∧ a.check_preconditions cur.blackboard = true ∧
      nd.blackboard = a.apply_effects cur.blackboard true ∧
      nd.cost = cur.cost + a.cost cur.blackboard ∧
      nd.chain = cur.chain ++ [k + j] ∧ nd.blackboard ∉ closed := by
  induction acts generalizing k with
  | nil => simp [expand] at h
  | cons a acts ih =>
    simp only [expand] at h
    by_cases hc : a.check_preconditions cur.blackboard
    · rw [if_pos hc] at h
      by_cases hm : a.apply_effects cur.blackboard true ∈ closed
      · rw [if_pos hm] at h
        obtain ⟨j, a', rest⟩ := ih h
        exact ⟨j + 1, a', by simpa [Nat.add_assoc, Nat.add_comm 1 j] using rest⟩
      · rw [if_neg hm] at h
        rcases List.mem_cons.mp h with h | h
        · refine ⟨0, a, by simp, hc, ?_⟩
          subst h
          simp [hm]
        · obtain ⟨j, a', rest⟩ := ih h
          exact ⟨j + 1, a', by simpa [Nat.add_assoc, Nat.add_comm 1 j] using rest⟩
    · rw [if_neg hc] at h
      obtain ⟨j, a', rest⟩ := ih h
      exact ⟨j + 1, a', by simpa [Nat.add_assoc, Nat.add_comm 1 j] using rest⟩

theorem expand_length_le (acts : List (action T)) (k : Nat) (cur : Node T)
    (closed : List T) : (expand acts k cur closed).length ≤ acts.length := by
  induction acts generalizing k with
  | nil => simp [expand]
  | cons a acts ih =>
    simp only [expand, List.length_cons]
    by_cases hc : a.check_preconditions cur.blackboard
    · rw [if_pos hc]
      by_cases hm : a.apply_effects cur.blackboard true ∈ closed
      · rw [if_pos hm]
        exact Nat.le_succ_of_le (ih _)
      · rw [if_neg hm]
        simpa using ih (k + 1)
    · rw [if_neg hc]
      exact Nat.le_succ_of_le (ih _)

/-! ### Search loop lemmas -/

theorem searchAux_stable (actions : List (action T)) (g : T) :
    ∀ (m n : Nat) (o : List (Node T)) (c : List T), m ≤ n →
      (searchAux actions g m o c).isFuelOut = false →
      searchAux actions g n o c = searchAux actions g m o c := by
  intro m
  induction m with
  | zero =>
    intro n o c _ habs
    simp [searchAux, SearchOutcome.isFuelOut] at habs
  | succ m ih =>
    intro n o c hmn h
    match n, hmn with
    | n + 1, hmn' =>
      match o with
      | [] => simp [searchAux]
      | cur :: rest =>
        simp only [searchAux] at h ⊢
        by_cases hg : cur.blackboard = g
        · simp [hg]
        · by_cases hm : cur.blackboard ∈ c
          · simp only [if_neg hg, if_pos hm] at h ⊢
            exact ih n rest c (Nat.le_of_succ_le_succ hmn') h
          · simp only [if_neg hg, if_neg hm] at h ⊢
            exact ih n _ _ (Nat.le_of_succ_le_succ hmn') h

theorem searchAux_goal_start (actions : List (action T)) (i : T) (fuel : Nat)
    (h : 1 ≤ fuel) :
    searchAux actions i fuel [initial_node i] [] = .found [] [] := by
  match fuel, h with
  | fuel + 1, _ => simp [searchAux, initial_node]

theorem searchAux_found_inv (actions : List (action T)) (i g : T) :
    ∀ (fuel : Nat) (o : List (Node T)) (c : List T),
      (∀ nd ∈ o, NodeInv actions i nd) →
      ∀ chain cl, searchAux actions g fuel o c = .found chain cl →
      replay actions chain i = g ∧ ∀ idx ∈ chain, idx < actions.length := by
  intro fuel
  induction fuel with
  | zero =>
    intro o c _ chain cl h
    simp [searchAux] at h
  | succ fuel ih =>
    intro o c hinv chain cl h
    match o with
    | [] => simp [searchAux] at h
    | cur :: rest =>
      simp only [searchAux] at h
      by_cases hg : cur.blackboard = g
      · rw [if_pos hg] at h
        cases h
        have hcur := hinv cur (by simp)
        exact ⟨hcur.1.trans hg, hcur.2⟩
      · rw [if_neg hg] at h
        by_cases hm : cur.blackboard ∈ c
        · rw [if_pos hm] at h
          exact ih rest c (fun nd hnd => hinv nd (List.mem_cons_of_mem _ hnd)) chain cl h
        · rw [if_neg hm] at h
          refine ih _ _ ?_ chain cl h
          intro nd hnd
          rcases (foldl_push_mem nd _ rest).mp hnd with hnd | hnd
          · exact hinv nd (List.mem_cons_of_mem _ hnd)
          · obtain ⟨j, a, hja, hchk, hbb, _, hchain, _⟩ := expand_mem hnd
            have hcur := hinv cur (by simp)
            have hjlt : j < actions.length := (List.getElem?_eq_some.mp hja).1
            constructor
            · rw [hchain, replay, List.foldl_append]
              simp only [Nat.zero_add, List.foldl_cons, List.foldl_nil, hja]
              rw [show List.foldl _ i cur.chain = replay actions cur.chain i from rfl,
                hcur.1, ← hbb]
            · intro idx hidx
              rw [hchain, Nat.zero_add] at hidx
              rcases List.mem_append.mp hidx with hidx | hidx
              · exact hcur.2 idx hidx
              · rw [List.mem_singleton.mp hidx]
                exact hjlt

theorem searchAux_found_from_root (actions : List (action T)) (i g : T)
    (fuel : Nat) (chain : List Nat) (cl : List T)
    (h : searchAux actions g fuel [initial_node i] [] = .found chain cl) :
    replay actions chain i = g ∧ ∀ idx ∈ chain, idx < actions.length := by
  refine searchAux_found_inv actions i g fuel _ _ ?_ chain cl h
  intro nd hnd
  rw [List.mem_singleton.mp hnd]
  exact ⟨rfl, by simp [initial_node]⟩

theorem searchAux_closed_nodup (actions : List (action T)) (g : T) :
    ∀ (fuel : Nat) (o : List (Node T)) (c : List T), c.Nodup →
      ((searchAux actions g fuel o c).closedOf).Nodup := by
  intro fuel
  induction fuel with
  | zero =>
    intro o c h
    simpa [searchAux, SearchOutcome.closedOf] using h
  | succ fuel ih =>
    intro o c h
    match o with
    | [] => simpa [searchAux, SearchOutcome.closedOf] using h
    | cur :: rest =>
      simp only [searchAux]
      by_cases hg : cur.blackboard = g
      · rw [if_pos hg]
        simpa [SearchOutcome.closedOf] using h
      · rw [if_neg hg]
        by_cases hm : cur.blackboard ∈ c
        · rw [if_pos hm]
          exact ih rest c h
        · rw [if_neg hm]
          exact ih _ _ (List.nodup_cons.mpr ⟨hm, h⟩)

/-! ### Plan execution lemmas -/

theorem run_all_eq_run_next (p : plan T) (b : T) (h : p.m_plan ≠ []) :
    p.run_all b = ((p.run_next b).1).run_all (p.run_next b).2 := by
  obtain ⟨steps, acts⟩ := p
  match steps, h with
  | action_idx :: rest, _ =>
    simp only [plan.run_next, plan.run_all, run_all_aux]
    cases acts[action_idx]? <;> rfl

theorem run_next_exhausted (p : plan T) (b : T) (h : p.m_plan = []) :
    p.run_next b = (p, b) := by
  obtain ⟨steps, acts⟩ := p
  cases h
  rfl

theorem run_all_eq_replay (actions : List (action T))
    (hpure : ∀ a ∈ actions, ∀ s, a.apply_effects s true = a.apply_effects s false) :
    ∀ (chain : List Nat) (b : T), plan.run_all ⟨chain, actions⟩ b = replay actions chain b := by
  intro chain
  induction chain with
  | nil => intro b; simp [plan.run_all, run_all_aux, replay]
  | cons action_idx rest ih =>
    intro b
    cases hja : actions[action_idx]? with
    | none =>
      simp only [plan.run_all, run_all_aux, replay, List.foldl_cons, hja]
      exact ih b
    | some a =>
      simp only [plan.run_all, run_all_aux, replay, List.foldl_cons, hja]
      rw [← hpure a (List.getElem?_mem hja) b]
      exact ih _

/-! ### Planner-level lemmas -/

theorem searchAux_det (actions : List (action T)) (g : T) (f₁ f₂ : Nat)
    (o : List (Node T)) (c : List T)
    (h₁ : (searchAux actions g f₁ o c).isFuelOut = false)
    (h₂ : (searchAux actions g f₂ o c).isFuelOut = false) :
    searchAux actions g f₁ o c = searchAux actions g f₂ o c := by
  rcases Nat.le_total f₁ f₂ with h | h
  · rw [searchAux_stable actions g f₁ f₂ o c h h₁]
  · rw [searchAux_stable actions g f₂ f₁ o c h h₂]

theorem outcome_plan_isSome {actions : List (action T)} {r : SearchOutcome T}
    {p : plan T} (h : outcome_plan actions r = some p) : r.isFuelOut = false := by
  cases r <;> simp_all [outcome_plan, SearchOutcome.isFuelOut]

theorem planner_returns_of_pos (actions : List (action T)) (i g : T) (m : Nat)
    (hm : m ≠ 0) :
    planner_returns actions i g m (planner actions i g m) := by
  unfold planner_returns
  rw [if_neg hm]

theorem planner_eq_default (actions : List (action T)) (i g : T) (m : Nat)
    (h : (searchAux actions g m [initial_node i] []).isFound = false) :
    planner actions i g m = ⟨[], []⟩ := by
  unfold planner
  cases ho : searchAux actions g m [initial_node i] [] with
  | found chain cl => rw [ho] at h; simp [SearchOutcome.isFound] at h
  | exhausted c => simp [ho]
  | fuelOut o c => simp [ho]

theorem planner_returns_elim {actions : List (action T)} {i g : T} {m : Nat}
    {p : plan T} (h : planner_returns actions i g m p) :
    (∃ fuel chain cl, searchAux actions g fuel [initial_node i] [] = .found chain cl ∧
      p = ⟨chain, actions⟩ ∧ (m = 0 ∨ fuel = m)) ∨ p = ⟨[], []⟩ := by
  unfold planner_returns at h
  by_cases hm : m = 0
  · rw [if_pos hm] at h
    obtain ⟨fuel, h⟩ := h
    cases ho : searchAux actions g fuel [initial_node i] [] with
    | found chain cl =>
      rw [ho] at h
      simp only [outcome_plan, Option.some.injEq] at h
      exact .inl ⟨fuel, chain, cl, ho, h.symm, .inl hm⟩
    | exhausted c =>
      rw [ho] at h
      simp only [outcome_plan, Option.some.injEq] at h
      exact .inr h.symm
    | fuelOut os c =>
      rw [ho] at h
      simp [outcome_plan] at h
  · rw [if_neg hm] at h
    subst h
    unfold planner
    cases ho : searchAux actions g m [initial_node i] [] with
    | found chain cl => exact .inl ⟨m, chain, cl, ho, by simp [ho], .inr rfl⟩
    | exhausted c => simp [ho]
    | fuelOut os c => simp [ho]

theorem found_chain_nil_iff {actions : List (action T)} {i g : T} {fuel : Nat}
    {chain : List Nat} {cl : List T}
    (hf : searchAux actions g fuel [initial_node i] [] = .found chain cl) :
    chain = [] ↔ i = g := by
  constructor
  · intro he
    subst he
    have := (searchAux_found_from_root actions i g fuel [] cl hf).1
    simpa [replay] using this
  · intro he
    subst he
    match fuel, hf with
    | 0, hf => simp [searchAux] at hf
    | fuel + 1, hf =>
      rw [searchAux_goal_start actions i (fuel + 1) (Nat.succ_le_succ (Nat.zero_le _))] at hf
      cases hf
      rfl

/-! ### The unreachable-goal scenario: invariant proof -/

theorem storage_free_inv_preserved {cur : Node blackboard_type} {nd : Node blackboard_type}
    {closed : List blackboard_type} (hcur : storage_free_inv cur.blackboard)
    (hnd : nd ∈ expand resource_actions 0 cur closed) :
    storage_free_inv nd.blackboard := by
  obtain ⟨j, a, hja, hchk, hbb, _, _, _⟩ := expand_mem hnd
  have hj : j < 5 := by
    have := (List.getElem?_eq_some.mp hja).1
    simpa [resource_actions] using this
  rw [hbb]
  interval_cases j
  · simp only [resource_actions, List.getElem?_cons_zero, Option.some.injEq] at hja
    subst hja
    exact fun hs => hcur hs
  · simp only [resource_actions, List.getElem?_cons_succ, List.getElem?_cons_zero,
      Option.some.injEq] at hja
    subst hja
    simp [build_storage, storage_free_inv]
  · simp only [resource_actions, List.getElem?_cons_succ, List.getElem?_cons_zero,
      Option.some.injEq] at hja
    subst hja
    simp only [gather_food] at hchk
    simp [gather_food, storage_free_inv, hchk]
  · simp only [resource_actions, List.getElem?_cons_succ, List.getElem?_cons_zero,
      Option.some.injEq] at hja
    subst hja
    simp only [mine_gold] at hchk
    simp [mine_gold, storage_free_inv, hchk]
  · simp only [resource_actions, List.getElem?_cons_succ, List.getElem?_cons_zero,
      Option.some.injEq] at hja
    subst hja
    simp only [mine_stone] at hchk
    simp [mine_stone, storage_free_inv, hchk]

theorem searchAux_storage_unreachable :
    ∀ (fuel : Nat) (o : List (Node blackboard_type)) (closed : List blackboard_type),
      (∀ nd ∈ o, storage_free_inv nd.blackboard) →
      (searchAux resource_actions resource_goal_unreachable fuel o closed).isFound = false := by
  intro fuel
  induction fuel with
  | zero => intro o closed _; rfl
  | succ fuel ih =>
    intro o closed hinv
    match o with
    | [] => rfl
    | cur :: rest =>
      have hcur := hinv cur (by simp)
      have hg : cur.blackboard ≠ resource_goal_unreachable := by
        intro he
        have := hcur
        rw [he] at this
        simp [storage_free_inv, resource_goal_unreachable] at this
      simp only [searchAux, if_neg hg]
      by_cases hm : cur.blackboard ∈ closed
      · rw [if_pos hm]
        exact ih rest closed fun nd hnd => hinv nd (List.mem_cons_of_mem _ hnd)
      · rw [if_neg hm]
        refine ih _ _ ?_
        intro nd hnd
        rcases (foldl_push_mem nd _ rest).mp hnd with h | h
        · exact hinv nd (List.mem_cons_of_mem _ h)
        · exact storage_free_inv_preserved hcur h

/-! ### The infinite-state scenario: divergence proof -/

theorem count_up_closed_mem : ∀ (k m : Nat), m ∈ count_up_closed k ↔ 6 ≤ m ∧ m < 6 + k := by
  intro k
  induction k with
  | zero => intro m; simp [count_up_closed]
  | succ k ih =>
    intro m
    simp only [count_up_closed, List.mem_cons, ih]
    omega

theorem count_up_step (fuel k : Nat) :
    searchAux [count_up] 5 (fuel + 1) [count_up_node k] (count_up_closed k) =
    searchAux [count_up] 5 fuel [count_up_node (k + 1)] (count_up_closed (k + 1)) := by
  have hbb : (count_up_node k).blackboard = 6 + k := rfl
  have hg : (count_up_node k).blackboard ≠ 5 := by rw [hbb]; omega
  have hm : (count_up_node k).blackboard ∉ count_up_closed k := by
    rw [hbb, count_up_closed_mem]
    omega
  simp only [searchAux, if_neg hg, if_neg hm]
  have hclosed : (count_up_node k).blackboard :: count_up_closed k = count_up_closed (k + 1) := by
    rw [hbb]; rfl
  have hexpand : expand [count_up] 0 (count_up_node k) (count_up_closed (k + 1)) =
      [count_up_node (k + 1)] := by
    have hm' : ¬((6 + k + 1 : Nat) ∈ count_up_closed (k + 1)) := by
      rw [count_up_closed_mem]
      omega
    simp only [expand, count_up, count_up_node]
    rw [if_neg hm']
    simp only [if_true, List.cons.injEq, Node.mk.injEq, List.replicate_succ', and_true]
    refine ⟨by omega, ?_⟩
    push_cast
    ring
  rw [hclosed, hexpand]
  rfl

theorem count_up_diverges_aux :
    ∀ (fuel k : Nat),
      (searchAux [count_up] 5 fuel [count_up_node k] (count_up_closed k)).isFuelOut = true := by
  intro fuel
  induction fuel with
  | zero => intro k; rfl
  | succ fuel ih =>
    intro k
    rw [count_up_step]
    exact ih (k + 1)

theorem replay_count_up_ge : ∀ (chain : List Nat) (s : Nat), s ≤ replay [count_up] chain s := by
  intro chain
  induction chain with
  | nil => intro s; exact le_refl s
  | cons action_idx rest ih =>
    intro s
    simp only [replay, List.foldl_cons]
    cases action_idx with
    | zero =>
      simp only [List.getElem?_cons_zero, count_up]
      exact le_trans (Nat.le_succ s) (ih (s + 1))
    | succ j =>
      simp only [List.getElem?_cons_succ, List.getElem?_nil]
      exact ih s

/-! ### Finite-state termination machinery -/

theorem filter_notMem_cons_le (x : T) (closed : List T) :
    ∀ (S : List T), (S.filter fun s => decide (s ∉ x :: closed)).length ≤
      (S.filter fun s => decide (s ∉ closed)).length := by
  intro S
  induction S with
  | nil => simp
  | cons h t ih =>
    simp only [List.filter_cons]
    by_cases hc : h ∈ closed
    · have d1 : decide (h ∉ x :: closed) = false :=
        decide_eq_false (not_not_intro (List.mem_cons_of_mem x hc))
      have d2 : decide (h ∉ closed) = false := decide_eq_false (not_not_intro hc)
      rw [d1, d2, if_neg Bool.false_ne_true, if_neg Bool.false_ne_true]
      exact ih
    · by_cases hx2 : h ∈ x :: closed
      · have d1 : decide (h ∉ x :: closed) = false := decide_eq_false (not_not_intro hx2)
        have d2 : decide (h ∉ closed) = true := decide_eq_true hc
        rw [d1, d2, if_neg Bool.false_ne_true, if_pos rfl]
        simp only [List.length_cons]
        omega
      · have d1 : decide (h ∉ x :: closed) = true := decide_eq_true hx2
        have d2 : decide (h ∉ closed) = true := decide_eq_true hc
        rw [d1, d2, if_pos rfl, if_pos rfl]
        simp only [List.length_cons]
        omega

theorem filter_notMem_cons_lt (x : T) (closed : List T) (S : List T)
    (hx : x ∈ S) (hnc : x ∉ closed) :
    (S.filter fun s => decide (s ∉ x :: closed)).length <
    (S.filter fun s => decide (s ∉ closed)).length := by
  induction S with
  | nil => cases hx
  | cons h t ih =>
    simp only [List.filter_cons]
    by_cases hhx : h = x
    · subst hhx
      have hle := filter_notMem_cons_le h closed t
      have d1 : decide (h ∉ h :: closed) = false :=
        decide_eq_false (not_not_intro (List.mem_cons_self h closed))
      have d2 : decide (h ∉ closed) = true := decide_eq_true hnc
      rw [d1, d2, if_neg Bool.false_ne_true, if_pos rfl]
      simp only [List.length_cons]
      omega
    · have hx' : x ∈ t := by
        rcases List.mem_cons.mp hx with h' | h'
        · exact absurd h'.symm hhx
        · exact h'
      have hlt := ih hx'
      by_cases hc : h ∈ closed
      · have d1 : decide (h ∉ x :: closed) = false :=
          decide_eq_false (not_not_intro (List.mem_cons_of_mem x hc))
        have d2 : decide (h ∉ closed) = false := decide_eq_false (not_not_intro hc)
        rw [d1, d2, if_neg Bool.false_ne_true, if_neg Bool.false_ne_true]
        exact hlt
      · by_cases hx2 : h ∈ x :: closed
        · have d1 : decide (h ∉ x :: closed) = false := decide_eq_false (not_not_intro hx2)
          have d2 : decide (h ∉ closed) = true := decide_eq_true hc
          rw [d1, d2, if_neg Bool.false_ne_true, if_pos rfl]
          simp only [List.length_cons]
          omega
        · have d1 : decide (h ∉ x :: closed) = true := decide_eq_true hx2
          have d2 : decide (h ∉ closed) = true := decide_eq_true hc
          rw [d1, d2, if_pos rfl, if_pos rfl]
          simp only [List.length_cons]
          omega

theorem searchAux_exhausts (actions : List (action T)) (g : T) (S : List T)
    (hclosure : ∀ s ∈ S, ∀ a ∈ actions, a.check_preconditions s = true →
      a.apply_effects s true ∈ S)
    (hg : g ∉ S) :
    ∀ (n : Nat) (o : List (Node T)) (closed : List T),
      (∀ nd ∈ o, nd.blackboard ∈ S) →
      searchMeasure actions.length S o closed < n →
      ∃ c, searchAux actions g n o closed = .exhausted c := by
  intro n
  induction n using Nat.strong_induction_on with
  | _ n ih =>
    intro o closed ho hms
    match n, hms with
    | n + 1, hms' =>
      match o with
      | [] => exact ⟨closed, rfl⟩
      | cur :: rest =>
        have hcS : cur.blackboard ∈ S := ho cur (by simp)
        have hcg : cur.blackboard ≠ g := fun he => hg (he ▸ hcS)
        simp only [searchAux, if_neg hcg]
        by_cases hm : cur.blackboard ∈ closed
        · rw [if_pos hm]
          refine ih n (Nat.lt_succ_self n) rest closed
            (fun nd hnd => ho nd (List.mem_cons_of_mem _ hnd)) ?_
          unfold searchMeasure at hms' ⊢
          simp only [List.length_cons] at hms'
          omega
        · rw [if_neg hm]
          refine ih n (Nat.lt_succ_self n) _ _ ?_ ?_
          · intro nd hnd
            rcases (foldl_push_mem nd _ rest).mp hnd with h | h
            · exact ho nd (List.mem_cons_of_mem _ h)
            · obtain ⟨j, a, hja, hchk, hbb, _, _, _⟩ := expand_mem h
              rw [hbb]
              exact hclosure _ hcS a (List.getElem?_mem hja) hchk
          · have h1 := foldl_push_length
              (expand actions 0 cur (cur.blackboard :: closed)) rest
            have h2 := expand_length_le actions 0 cur (cur.blackboard :: closed)
            have h3 := filter_notMem_cons_lt cur.blackboard closed S hcS hm
            unfold searchMeasure at hms' ⊢
            simp only [List.length_cons] at hms'
            rw [h1]
            have hmul : (S.filter fun s => decide (s ∉ cur.blackboard :: closed)).length *
                (actions.length + 1) + (actions.length + 1) ≤
                (S.filter fun s => decide (s ∉ closed)).length * (actions.length + 1) := by
              have hF : (S.filter fun s => decide (s ∉ cur.blackboard :: closed)).length + 1 ≤
                  (S.filter fun s => decide (s ∉ closed)).length := h3
              calc (S.filter fun s => decide (s ∉ cur.blackboard :: closed)).length *
                  (actions.length + 1) + (actions.length + 1)
                  = ((S.filter fun s => decide (s ∉ cur.blackboard :: closed)).length + 1) *
                    (actions.length + 1) := by ring
                _ ≤ (S.filter fun s => decide (s ∉ closed)).length * (actions.length + 1) :=
                    Nat.mul_le_mul_right _ hF
            omega

/-! ### Claims -/

/-- C9: calling `run_next` on an exhausted plan (`size() == 0`) is a no-op:
no action's effects are applied, the caller's blackboard is returned
unchanged, and the plan's size remains 0. -/
theorem C9_run_next_noop (p : plan T) (b : T) (h : p.size = 0) :
    p.run_next b = (p, b) ∧ ((p.run_next b).1).size = 0 := by
  have hl : p.m_plan = [] := List.length_eq_zero.mp h
  refine ⟨run_next_exhausted p b hl, ?_⟩
  rw [run_next_exhausted p b hl]
  exact h

/-- Concrete instantiation of `C9_run_next_noop` at the empty plan over `Nat`
blackboards. -/
theorem C9_witness :
    (plan.mk [] ([] : List (action Nat))).run_next 0 = (plan.mk [] [], 0) ∧
    (((plan.mk [] ([] : List (action Nat))).run_next 0).1).size = 0 :=
  C9_run_next_noop ⟨[], []⟩ 0 rfl

/-- C3: for every action list and state `S`, `planner(actions, S, S, m)` finds
the goal on the first search iteration and the returned plan has
`size() == 0` (success with zero steps), for any `max_iterations` `m`. -/
theorem C3_trivial_goal (actions : List (action T)) (S : T) (m : Nat) (p : plan T)
    (h : planner_returns actions S S m p) :
    p.size = 0 ∧ searchAux actions S 1 [initial_node S] [] = .found [] [] := by
  refine ⟨?_, searchAux_goal_start actions S 1 le_rfl⟩
  rcases planner_returns_elim h with ⟨fuel, chain, cl, hf, hp, _⟩ | hp
  · have hc : chain = [] := (found_chain_nil_iff hf).mpr rfl
    subst hc
    rw [hp]
    rfl
  · rw [hp]
    rfl

/-- Concrete instantiation of `C3_trivial_goal` with the empty action list
over `Nat` blackboards. -/
theorem C3_witness :
    (planner ([] : List (action Nat)) 0 0 1).size = 0 ∧
    searchAux ([] : List (action Nat)) 0 1 [initial_node 0] [] = .found [] [] :=
  C3_trivial_goal [] 0 1 _ (planner_returns_of_pos [] 0 0 1 (by decide))

/-- C6: planning is deterministic: two `planner` calls with identical
arguments (in this embedding, actions are pure functions of the state by
construction) return plans of equal `size()` and the identical sequence of
action indices. -/
theorem C6_deterministic (actions : List (action T)) (i g : T) (m : Nat)
    (p₁ p₂ : plan T) (h₁ : planner_returns actions i g m p₁)
    (h₂ : planner_returns actions i g m p₂) :
    p₁.size = p₂.size ∧ p₁.m_plan = p₂.m_plan := by
  suffices hp : p₁ = p₂ by rw [hp]; exact ⟨rfl, rfl⟩
  unfold planner_returns at h₁ h₂
  by_cases hm : m = 0
  · rw [if_pos hm] at h₁ h₂
    obtain ⟨f₁, h₁⟩ := h₁
    obtain ⟨f₂, h₂⟩ := h₂
    rw [searchAux_det actions g f₁ f₂ _ _ (outcome_plan_isSome h₁)
      (outcome_plan_isSome h₂)] at h₁
    rw [h₁] at h₂
    exact Option.some.inj h₂
  · rw [if_neg hm] at h₁ h₂
    rw [h₁, h₂]

/-- Concrete instantiation of `C6_deterministic`. -/
theorem C6_witness :
    (planner [count_up] 0 3 10).size = (planner [count_up] 0 3 10).size ∧
    (planner [count_up] 0 3 10).m_plan = (planner [count_up] 0 3 10).m_plan :=
  C6_deterministic [count_up] 0 3 10 _ _
    (planner_returns_of_pos [count_up] 0 3 10 (by decide))
    (planner_returns_of_pos [count_up] 0 3 10 (by decide))

/-- C10: every action index stored in a plan that `planner` can return is
strictly below the length of the action list stored in that plan, so the
lookup performed by `run_next` is always in bounds and its out-of-range
branch is unreachable. -/
theorem C10_indices_in_bounds (actions : List (action T)) (i g : T) (m : Nat)
    (p : plan T) (h : planner_returns actions i g m p) :
    (∀ idx ∈ p.m_plan, idx < p.m_actions.length) ∧
    (∀ action_idx rest, p.m_plan = action_idx :: rest →
      (p.m_actions[action_idx]?).isSome = true) := by
  have hmain : ∀ idx ∈ p.m_plan, idx < p.m_actions.length := by
    rcases planner_returns_elim h with ⟨fuel, chain, cl, hf, hp, _⟩ | hp
    · rw [hp]
      exact (searchAux_found_from_root actions i g fuel chain cl hf).2
    · rw [hp]
      intro idx hidx
      cases hidx
  refine ⟨hmain, ?_⟩
  intro action_idx rest hplan
  have hlt : action_idx < p.m_actions.length := hmain action_idx (by rw [hplan]; simp)
  rw [List.getElem?_eq_getElem hlt]
  rfl

/-- Concrete instantiation of `C10_indices_in_bounds`. -/
theorem C10_witness :
    ((planner [dry_run_sensitive] 0 1 3).m_actions[0]?).isSome = true :=
  (C10_indices_in_bounds [dry_run_sensitive] 0 1 3 _
    (planner_returns_of_pos [dry_run_sensitive] 0 1 3 (by decide))).2 0 []
    (by decide)

/-- C1 refutation: with an action whose state transition depends on the
`dry_run` flag (permitted by the `action<T>` interface, though violating the
documented contract), `planner` returns a non-empty plan whose execution from
the initial state does not reach the goal state `1` — it reaches `2`. -/
theorem C1_counterexample :
    (planner [dry_run_sensitive] 0 1 3).m_plan ≠ [] ∧
    (planner [dry_run_sensitive] 0 1 3).run_all 0 = 2 := by
  exact ⟨by decide, by decide⟩

/-- C1 (amended): provided every action's state transition is the same under
both values of the `dry_run` flag (the documented action contract of §4.1),
whenever `planner` returns a non-empty plan, running it to exhaustion from a
copy of the initial state yields a state equal to the goal state. -/
theorem C1_plan_execution_reaches_goal (actions : List (action T)) (i g : T)
    (m : Nat) (p : plan T)
    (hpure : ∀ a ∈ actions, ∀ s, a.apply_effects s true = a.apply_effects s false)
    (h : planner_returns actions i g m p) (hne : p.m_plan ≠ []) :
    p.run_all i = g := by
  rcases planner_returns_elim h with ⟨fuel, chain, cl, hf, hp, _⟩ | hp
  · rw [hp]
    rw [run_all_eq_replay actions hpure chain i]
    exact (searchAux_found_from_root actions i g fuel chain cl hf).1
  · rw [hp] at hne
    exact absurd rfl hne

/-- Concrete instantiation of `C1_plan_execution_reaches_goal` with the
`count_up` action, initial state 0 and goal state 3. -/
theorem C1_witness : (planner [count_up] 0 3 10).run_all 0 = 3 :=
  C1_plan_execution_reaches_goal [count_up] 0 3 10 _
    (by intro a ha s; rw [List.mem_singleton.mp ha]; rfl)
    (planner_returns_of_pos [count_up] 0 3 10 (by decide))
    (by decide)

/-- C2 refutation: with the empty action list, initial state 0 and goal state
0, the search terminates by popping a node whose state equals the goal, yet
the returned plan is empty — so a popped goal node does not guarantee a
non-empty plan, and plan emptiness does not exactly signal failure. -/
theorem C2_counterexample :
    searchAux ([] : List (action Nat)) 0 1 [initial_node 0] [] = .found [] [] ∧
    (planner ([] : List (action Nat)) 0 0 1).m_plan = [] := ⟨rfl, rfl⟩

/-- C2 (amended): the plan returned by `planner` is non-empty exactly when the
search popped a goal node and the initial state differs from the goal state;
an empty plan means failure (no path found or budget exhausted) or trivial
zero-step success (`initial == goal`). -/
theorem C2_nonempty_iff_found_nontrivial (actions : List (action T)) (i g : T)
    (m : Nat) (p : plan T) (h : planner_returns actions i g m p) :
    p.m_plan ≠ [] ↔ (search_found actions i g m ∧ i ≠ g) := by
  constructor
  · intro hne
    rcases planner_returns_elim h with ⟨fuel, chain, cl, hf, hp, hm⟩ | hp
    · subst hp
      have hchain : chain ≠ [] := hne
      have hig : i ≠ g := fun he => hchain ((found_chain_nil_iff hf).mpr he)
      refine ⟨?_, hig⟩
      unfold search_found
      rcases hm with hm | hm
      · rw [if_pos hm]
        exact ⟨fuel, chain, cl, hf⟩
      · subst hm
        by_cases hm0 : fuel = 0
        · subst hm0
          simp [searchAux] at hf
        · rw [if_neg hm0]
          exact ⟨chain, cl, hf⟩
    · subst hp
      exact absurd rfl hne
  · rintro ⟨hsf, hig⟩
    unfold search_found at hsf
    by_cases hm : m = 0
    · rw [if_pos hm] at hsf
      obtain ⟨fuel, chain, cl, hf⟩ := hsf
      unfold planner_returns at h
      rw [if_pos hm] at h
      obtain ⟨f', hp⟩ := h
      rw [searchAux_det actions g f' fuel _ _ (outcome_plan_isSome hp)
        (by rw [hf]; rfl), hf] at hp
      simp only [outcome_plan, Option.some.injEq] at hp
      rw [← hp]
      exact fun hc => hig ((found_chain_nil_iff hf).mp hc)
    · rw [if_neg hm] at hsf
      obtain ⟨chain, cl, hf⟩ := hsf
      unfold planner_returns at h
      rw [if_neg hm] at h
      subst h
      unfold planner
      rw [hf]
      exact fun hc => hig ((found_chain_nil_iff hf).mp hc)

/-- Concrete instantiation of `C2_nonempty_iff_found_nontrivial` with the
`count_up` action, initial state 0 and goal state 3. -/
theorem C2_witness :
    (planner [count_up] 0 3 10).m_plan ≠ [] ↔
      (search_found [count_up] 0 3 10 ∧ (0 : Nat) ≠ 3) :=
  C2_nonempty_iff_found_nontrivial [count_up] 0 3 10 _
    (planner_returns_of_pos [count_up] 0 3 10 (by decide))

/-- C5: the closed-set discipline of a single planner call: (i) popping a
node whose state is already closed skips it — no expansion, no pushes, the
closed set unchanged; (ii) popping an unclosed non-goal node inserts its
state into the closed set at pop time and pushes the expansion successors;
(iii) the closed set never acquires duplicates, so each distinct state is
expanded at most once; (iv) the same state may sit on the frontier several
times before being closed: with two actions leading 0 to the same state 1,
one iteration leaves two frontier entries with equal blackboard 1, not yet
closed. -/
theorem C5_closed_set_discipline :
    (∀ (actions : List (action T)) (g : T) (fuel : Nat) (cur : Node T)
       (rest : List (Node T)) (closed : List T),
       cur.blackboard ≠ g → cur.blackboard ∈ closed →
       searchAux actions g (fuel + 1) (cur :: rest) closed =
         searchAux actions g fuel rest closed) ∧
    (∀ (actions : List (action T)) (g : T) (fuel : Nat) (cur : Node T)
       (rest : List (Node T)) (closed : List T),
       cur.blackboard ≠ g → cur.blackboard ∉ closed →
       searchAux actions g (fuel + 1) (cur :: rest) closed =
         searchAux actions g fuel
           ((expand actions 0 cur (cur.blackboard :: closed)).foldl
             (fun acc n => push_open n acc) rest)
           (cur.blackboard :: closed)) ∧
    (∀ (actions : List (action T)) (g : T) (fuel : Nat) (o : List (Node T))
       (closed : List T), closed.Nodup →
       ((searchAux actions g fuel o closed).closedOf).Nodup) ∧
    (searchAux [dup_left, dup_right] 99 1 [initial_node 0] [] =
       .fuelOut [⟨1, 1, [1]⟩, ⟨1, 1, [0]⟩] [0] ∧ (1 : Nat) ∉ [0]) := by
  refine ⟨?_, ?_, ?_, ?_, ?_⟩
  · intro actions g fuel cur rest closed hg hm
    simp only [searchAux, if_neg hg, if_pos hm]
  · intro actions g fuel cur rest closed hg hm
    simp only [searchAux, if_neg hg, if_neg hm]
  · exact fun actions g fuel o closed h => searchAux_closed_nodup actions g fuel o closed h
  · rfl
  · decide

/-- Concrete instantiations of the three universally quantified conjuncts of
`C5_closed_set_discipline`. -/
theorem C5_witness :
    (searchAux ([] : List (action Nat)) 9 1 [⟨5, 0, []⟩] [5] =
      searchAux [] 9 0 [] [5]) ∧
    (searchAux ([] : List (action Nat)) 9 1 [⟨5, 0, []⟩] [] =
      searchAux [] 9 0
        ((expand [] 0 ⟨5, 0, []⟩ [5]).foldl (fun acc n => push_open n acc) []) [5]) ∧
    ((searchAux ([] : List (action Nat)) 9 1 [⟨5, 0, []⟩] []).closedOf).Nodup :=
  ⟨C5_closed_set_discipline.1 [] 9 0 ⟨5, 0, []⟩ [] [5] (by decide) (by decide),
   C5_closed_set_discipline.2.1 [] 9 0 ⟨5, 0, []⟩ [] [] (by decide) (by decide),
   C5_closed_set_discipline.2.2.1 [] 9 1 [⟨5, 0, []⟩] [] List.nodup_nil⟩

/-- C7: if the goal is not popped within `max_iterations = N ≥ 1` iterations,
`planner` performs no further iterations and returns an empty plan — at the
plan level indistinguishable from provable unreachability; in particular, on
the resource-gathering actions with the storage-free goal
`{storage:false, food:3, gold:2, stone:1}` and `max_iterations = 1000`,
`planner` returns an empty plan. -/
theorem C7_budget_exhaustion :
    (∀ (actions : List (action T)) (i g : T) (N : Nat), 1 ≤ N →
       (searchAux actions g N [initial_node i] []).isFound = false →
       planner actions i g N = ⟨[], []⟩) ∧
    planner resource_actions resource_initial resource_goal_unreachable 1000 =
      ⟨[], []⟩ := by
  constructor
  · intro actions i g N _ h
    exact planner_eq_default actions i g N h
  · apply planner_eq_default
    apply searchAux_storage_unreachable
    intro nd hnd
    rw [List.mem_singleton.mp hnd]
    intro _
    exact ⟨rfl, rfl, rfl⟩

/-- Concrete instantiation of the general conjunct of
`C7_budget_exhaustion`. -/
theorem C7_witness : planner ([] : List (action Nat)) 0 1 1 = ⟨[], []⟩ :=
  C7_budget_exhaustion.1 [] 0 1 1 (by decide) (by decide)

/-- C8 refutation: the single always-applicable `count_up` action from
initial state 6 makes goal state 5 unreachable with a finite action list,
yet the `max_iterations = 0` search never terminates: every finite amount of
fuel runs out, because the reachable state space is infinite and the
frontier is never exhausted. -/
theorem C8_counterexample :
    unreachable_from [count_up] 6 5 ∧ search_diverges [count_up] 6 5 := by
  constructor
  · intro chain he
    have h := replay_count_up_ge chain 6
    rw [he] at h
    omega
  · intro fuel
    have h0 : [initial_node (6 : Nat)] = [count_up_node 0] := by
      simp [initial_node, count_up_node]
    rw [h0]
    exact count_up_diverges_aux fuel 0

/-- C8 (amended): over a finite state list closed under dry-run action
application, containing the initial state and excluding the goal state, the
search with `max_iterations = 0` terminates by exhausting the frontier, and
the call returns an empty plan.  (As stated — for every unreachable goal,
with no finiteness assumption — the claim fails, see `C8_counterexample`.) -/
theorem C8_finite_state_termination (actions : List (action T)) (i g : T)
    (S : List T) (hiS : i ∈ S)
    (hclosure : ∀ s ∈ S, ∀ a ∈ actions, a.check_preconditions s = true →
      a.apply_effects s true ∈ S)
    (hg : g ∉ S) :
    (∃ fuel c, searchAux actions g fuel [initial_node i] [] = .exhausted c) ∧
    planner_returns actions i g 0 ⟨[], []⟩ := by
  obtain ⟨c, hc⟩ := searchAux_exhausts actions g S hclosure hg
    (searchMeasure actions.length S [initial_node i] [] + 1) [initial_node i] []
    (by intro nd hnd; rw [List.mem_singleton.mp hnd]; exact hiS)
    (Nat.lt_succ_self _)
  refine ⟨⟨_, c, hc⟩, ?_⟩
  unfold planner_returns
  rw [if_pos rfl]
  exact ⟨_, by rw [hc]; rfl⟩

/-- Concrete instantiation of `C8_finite_state_termination`: empty action
list, states `S = [0]`, unreachable goal 1. -/
theorem C8_witness : planner_returns ([] : List (action Nat)) 0 1 0 ⟨[], []⟩ :=
  (C8_finite_state_termination [] 0 1 [0] (by decide) (by simp) (by decide)).2

/-! ### The resource-gathering scenario (C4): evaluation of the search -/

set_option maxRecDepth 1000000 in
set_option maxHeartbeats 10000000 in
theorem C4_chainOf :
    (searchAux resource_actions resource_goal 330
      [initial_node resource_initial] []).chainOf = some C4_chain := by
  decide

theorem C4_search_found :
    ∃ cl, searchAux resource_actions resource_goal 330
      [initial_node resource_initial] [] = .found C4_chain cl := by
  have h := C4_chainOf
  cases ho : searchAux resource_actions resource_goal 330
      [initial_node resource_initial] [] with
  | found chain cl =>
    rw [ho] at h
    simp only [SearchOutcome.chainOf, Option.some.injEq] at h
    exact ⟨cl, by rw [h]⟩
  | exhausted c =>
    rw [ho] at h
    simp [SearchOutcome.chainOf] at h
  | fuelOut o c =>
    rw [ho] at h
    simp [SearchOutcome.chainOf] at h

theorem C4_planner_returns :
    planner_returns resource_actions resource_initial resource_goal 0
      ⟨C4_chain, resource_actions⟩ := by
  obtain ⟨cl, hf⟩ := C4_search_found
  unfold planner_returns
  rw [if_pos rfl]
  exact ⟨330, by rw [hf]; rfl⟩

/-- C4: on the resource-gathering scenario of the test (initial
`{storage:false, wood:0, food:0, gold:0, stone:0}`, the five unit-cost
actions, goal `{storage:true, wood:0, food:3, gold:2, stone:1}`, unbounded
`max_iterations`), the planner returns a plan of exactly 17 steps — 10 ×
`chop_wood`, 1 × `build_storage`, 3 × `gather_food`, 2 × `mine_gold`, 1 ×
`mine_stone`, with the 10 `chop_wood` steps first — and executing the plan
transforms the initial state into exactly the goal state. -/
theorem C4_resource_scenario (p : plan blackboard_type)
    (h : planner_returns resource_actions resource_initial resource_goal 0 p) :
    p.size = 17 ∧
    p.m_plan.count 0 = 10 ∧ p.m_plan.count 1 = 1 ∧ p.m_plan.count 2 = 3 ∧
    p.m_plan.count 3 = 2 ∧ p.m_plan.count 4 = 1 ∧
    p.m_plan.take 10 = List.replicate 10 0 ∧
    p.run_all resource_initial = resource_goal := by
  obtain ⟨cl, hf⟩ := C4_search_found
  unfold planner_returns at h
  rw [if_pos rfl] at h
  obtain ⟨fuel, hp⟩ := h
  rw [searchAux_det resource_actions resource_goal fuel 330 _ _ (outcome_plan_isSome hp)
    (by rw [hf]; rfl), hf] at hp
  simp only [outcome_plan, Option.some.injEq] at hp
  rw [← hp]
  refine ⟨rfl, rfl, rfl, rfl, rfl, rfl, rfl, ?_⟩
  decide

/-- Concrete instantiation of `C4_resource_scenario` at the plan the search
returns. -/
theorem C4_witness : (plan.mk C4_chain resource_actions).size = 17 :=
  (C4_resource_scenario ⟨C4_chain, resource_actions⟩ C4_planner_returns).1

end aitoolkit.goap

